import Mathlib

/-!
Shallow embedding of `src/tic/tictactoe.py`, a tic-tac-toe minimax engine,
together with proofs of the specification claims.

Modelling conventions:
* A Python board (`list` of three `list`s of three cells, each `X`, `O` or
  `None`) is `List (List (Option Player))`; well-formedness of the 3x3 shape
  is the predicate `wf`.
* A Python action (a pair of `int`s) is `Int × Int`.
* The Python `set` returned by `actions` is modelled as the duplicate-free
  list of its elements in row-major order; where a property depends on the
  (unspecified) iteration order of a CPython set, the theorem quantifies
  over permutations of that list (`minimaxOrd`).
* The float infinities used as loop sentinels are the `negInf`/`posInf`
  constructors of `EVal`; genuine utilities are `EVal.int v`.
* `raise ValueError(...)` in `result` is modelled with `Except String`;
  the always-legal calls `result(board, action)` made by the search with
  `action` drawn from `actions(board)` are embedded as the total function
  `resultOk` (the `Except.ok` payload of `result`, see `result_frame`).
* The mutually recursive `max_value`/`min_value` pair is embedded as the
  single fuel-indexed function `valueF` with a Boolean flag selecting the
  maximizing or minimizing variant; the fuel `(actions b).length + 1` is
  exactly the depth of the remaining game tree plus one, so the fuel never
  runs out on a well-formed board.  The `break` statements are embedded as
  a fold that leaves the accumulator untouched once the cutoff value has
  been reached, which returns the same value as breaking out of the loop.
-/

namespace TicTacToe

inductive Player where
  | X : Player
  | O : Player
deriving DecidableEq

abbrev Cell := Option Player

abbrev Board := List (List Cell)

abbrev Action := Int × Int

/-- `initial_state()`: the all-empty 3x3 board. -/
def initial_state : Board :=
  [[none, none, none], [none, none, none], [none, none, none]]

/-- `sum(row.count(p) for row in board)` for a mark `p`. -/
def count_mark (p : Player) (b : Board) : Nat :=
  (b.map (fun row => row.count (some p))).sum

/-- `player(board)`: X if the X-count equals the O-count, else O. -/
def player (b : Board) : Player :=
  if count_mark Player.X b = count_mark Player.O b then Player.X else Player.O

/-- `board[i][j]` for in-range nat indices (out-of-range reads give `none`;
the embedded operations only read indices 0..2 of well-formed boards). -/
def cell (b : Board) (i j : Nat) : Cell :=
  (b.getD i []).getD j none

/-- The nine coordinates scanned by the `for i in range(3): for j in range(3)`
loops of `actions`, in row-major order. -/
def allCells : List Action :=
  [(0, 0), (0, 1), (0, 2), (1, 0), (1, 1), (1, 2), (2, 0), (2, 1), (2, 2)]

/-- `board[i][j]` at an action coordinate. -/
def cellA (b : Board) (a : Action) : Cell :=
  cell b a.1.toNat a.2.toNat

/-- `actions(board)`: the coordinates of the empty cells (as a set in the
source; here the row-major duplicate-free list of its elements). -/
def actions (b : Board) : List Action :=
  allCells.filter (fun a => (cellA b a).isNone)

/-- `new_board = deepcopy(board); new_board[i][j] = c`. -/
def setCell (b : Board) (a : Action) (c : Cell) : Board :=
  b.set a.1.toNat ((b.getD a.1.toNat []).set a.2.toNat c)

/-- The success path of `result`: copy the board and write the mover's mark. -/
def resultOk (b : Board) (a : Action) : Board :=
  setCell b a (some (player b))

/-- `result(board, action)`: raises (here: returns `Except.error` with the
source's message) when the action is not in `actions(board)`. -/
def result (b : Board) (a : Action) : Except String Board :=
  if a ∈ actions b then Except.ok (resultOk b a)
  else Except.error "Invalid action: cell is already occupied or out of bounds"

/-- One line check of `winner`: `c1 == c2 == c3 and c1 is not None`. -/
def lineWin (c1 c2 c3 : Cell) : Cell :=
  if c1 = c2 ∧ c2 = c3 ∧ c1 ≠ none then c1 else none

/-- First hit of the early-return scan in `winner`. -/
def firstSome : List Cell → Cell
  | [] => none
  | c :: rest => match c with
    | some p => some p
    | none => firstSome rest

/-- `winner(board)`: rows, then columns, then the two diagonals. -/
def winner (b : Board) : Cell :=
  firstSome
    [lineWin (cell b 0 0) (cell b 0 1) (cell b 0 2),
     lineWin (cell b 1 0) (cell b 1 1) (cell b 1 2),
     lineWin (cell b 2 0) (cell b 2 1) (cell b 2 2),
     lineWin (cell b 0 0) (cell b 1 0) (cell b 2 0),
     lineWin (cell b 0 1) (cell b 1 1) (cell b 2 1),
     lineWin (cell b 0 2) (cell b 1 2) (cell b 2 2),
     lineWin (cell b 0 0) (cell b 1 1) (cell b 2 2),
     lineWin (cell b 0 2) (cell b 1 1) (cell b 2 0)]

/-- `terminal(board)`: `winner(board) is not None or len(actions(board)) == 0`. -/
def terminal (b : Board) : Bool :=
  (winner b).isSome || (actions b).length == 0

/-- `utility(board)`: 1 if X has won, -1 if O has won, 0 otherwise. -/
def utility (b : Board) : Int :=
  if winner b = some Player.X then 1
  else if winner b = some Player.O then -1
  else 0

/-- Values flowing through the search loops: the float sentinels
`-math.inf` / `math.inf` or a genuine integer utility. -/
inductive EVal where
  | negInf : EVal
  | int : Int → EVal
  | posInf : EVal
deriving DecidableEq

/-- Python `<` on the values that occur in the search. -/
def EVal.lt : EVal → EVal → Bool
  | .negInf, .negInf => false
  | .negInf, _ => true
  | .int _, .negInf => false
  | .int a, .int b => a < b
  | .int _, .posInf => true
  | .posInf, _ => false

/-- Python `max(a, b)` (returns the first argument when equal). -/
def EVal.maxE (a b : EVal) : EVal :=
  if EVal.lt a b then b else a

/-- Python `min(a, b)` (returns the first argument when equal). -/
def EVal.minE (a b : EVal) : EVal :=
  if EVal.lt b a then b else a

/-- Fuel-indexed embedding of the mutually recursive `max_value` (flag
`true`) and `min_value` (flag `false`).  The `for`/`break` loop is the fold:
once the accumulator has reached the cutoff (`1` for max, `-1` for min) the
remaining iterations leave it unchanged, exactly as `break` does. -/
def valueF : Nat → Bool → Board → EVal
  | 0, isMax, _ => if isMax then EVal.negInf else EVal.posInf
  | n + 1, isMax, b =>
    if terminal b then EVal.int (utility b)
    else if isMax then
      (actions b).foldl
        (fun v a =>
          if v = EVal.int 1 then v
          else EVal.maxE v (valueF n false (resultOk b a)))
        EVal.negInf
    else
      (actions b).foldl
        (fun v a =>
          if v = EVal.int (-1) then v
          else EVal.minE v (valueF n true (resultOk b a)))
        EVal.posInf

/-- `max_value(board)`. -/
def max_value (b : Board) : EVal :=
  valueF ((actions b).length + 1) true b

/-- `min_value(board)`. -/
def min_value (b : Board) : EVal :=
  valueF ((actions b).length + 1) false b

/-- `minimax(board)` where the `for action in actions(board)` loop iterates
the action set in the order given by the list `l` (CPython set iteration
order is unspecified; theorems quantify over the permutations of
`actions b`). -/
def minimaxOrd (l : List Action) (b : Board) : Option Action :=
  if terminal b then none
  else if player b = Player.X then
    (l.foldl
      (fun st a =>
        let value := min_value (resultOk b a)
        if EVal.lt st.1 value then (value, some a) else st)
      ((EVal.negInf, none) : EVal × Option Action)).2
  else
    (l.foldl
      (fun st a =>
        let value := max_value (resultOk b a)
        if EVal.lt value st.1 then (value, some a) else st)
      ((EVal.posInf, none) : EVal × Option Action)).2

/-- `minimax(board)` with the row-major enumeration of the action set. -/
def minimax (b : Board) : Option Action :=
  minimaxOrd (actions b) b

/-- The 3x3 well-formedness of a board value. -/
def wf (b : Board) : Bool :=
  b.length == 3 && b.all (fun row => row.length == 3)

/-- Boards produced from `initial_state()` by legal `result` transitions. -/
inductive Reachable : Board → Prop where
  | init : Reachable initial_state
  | step {b : Board} {a : Action} :
      Reachable b → a ∈ actions b → Reachable (resultOk b a)

/-- Modelled from the spec: the exhaustive maximum of a (never empty in use)
list of utilities. -/
def intListMax : List Int → Int
  | [] => 0
  | x :: xs => xs.foldl max x

/-- Modelled from the spec: the exhaustive minimum of a (never empty in use)
list of utilities. -/
def intListMin : List Int → Int
  | [] => 0
  | x :: xs => xs.foldl min x

/-- Modelled from the spec: the pruning-free minimax value functions -
"the maximum over all legal actions of `min_value(result(board, action))`"
(flag `true`) and the symmetric minimum (flag `false`), with
`utility(board)` on terminal boards.  Used as the reference point for the
refinement claims about the early-exit pruning. -/
def specValueF : Nat → Bool → Board → Int
  | 0, _, _ => 0
  | n + 1, isMax, b =>
    if terminal b then utility b
    else if isMax then
      intListMax ((actions b).map (fun a => specValueF n false (resultOk b a)))
    else
      intListMin ((actions b).map (fun a => specValueF n true (resultOk b a)))

/-- Modelled from the spec: the exhaustive max-node value of a board. -/
def maxValueSpec (b : Board) : Int :=
  specValueF ((actions b).length + 1) true b

/-- Modelled from the spec: the exhaustive min-node value of a board. -/
def minValueSpec (b : Board) : Int :=
  specValueF ((actions b).length + 1) false b

/-- Modelled from the spec: "the game value of that position" - the value of
the player to move (max-node value for X, min-node value for O). -/
def gameValue (b : Board) : Int :=
  if player b = Player.X then maxValueSpec b else minValueSpec b

/-- Modelled from the spec: "X can force" a final utility of at least `v` -
X has a strategy that, against every O reply, reaches only terminal boards
of utility at least `v`. -/
inductive XGuar (v : Int) : Board → Prop where
  | ofTerminal {b : Board} : terminal b = true → v ≤ utility b → XGuar v b
  | ofXmove {b : Board} {a : Action} :
      terminal b = false → player b = Player.X → a ∈ actions b →
      XGuar v (resultOk b a) → XGuar v b
  | ofOmove {b : Board} :
      terminal b = false → player b = Player.O →
      (∀ a ∈ actions b, XGuar v (resultOk b a)) → XGuar v b

/-- Modelled from the spec: "O can force" a final utility of at most `v`. -/
inductive OGuar (v : Int) : Board → Prop where
  | ofTerminal {b : Board} : terminal b = true → utility b ≤ v → OGuar v b
  | ofOmove {b : Board} {a : Action} :
      terminal b = false → player b = Player.O → a ∈ actions b →
      OGuar v (resultOk b a) → OGuar v b
  | ofXmove {b : Board} :
      terminal b = false → player b = Player.X →
      (∀ a ∈ actions b, OGuar v (resultOk b a)) → OGuar v b

/-- A move-preference order (centre, corners, edges) used only to keep the
strategy-certificate computations below small. -/
def prefCells : List Action :=
  [(1, 1), (0, 0), (0, 2), (2, 0), (2, 2), (0, 1), (1, 0), (1, 2), (2, 1)]

/-- The eight winning lines as coordinate triples (proof machinery only). -/
def linesCoords : List (Action × Action × Action) :=
  [((0, 0), (0, 1), (0, 2)), ((1, 0), (1, 1), (1, 2)), ((2, 0), (2, 1), (2, 2)),
   ((0, 0), (1, 0), (2, 0)), ((0, 1), (1, 1), (2, 1)), ((0, 2), (1, 2), (2, 2)),
   ((0, 0), (1, 1), (2, 2)), ((0, 2), (1, 1), (2, 0))]

/-- The other player. -/
def other : Player → Player
  | Player.X => Player.O
  | Player.O => Player.X

/-- The empty cell (if any) that would complete the given line for `p`. -/
def lineCand (p : Player) (b : Board) (t : Action × Action × Action) : Option Action :=
  if cellA b t.1 = some p ∧ cellA b t.2.1 = some p ∧ cellA b t.2.2 = none then some t.2.2
  else if cellA b t.1 = some p ∧ cellA b t.2.2 = some p ∧ cellA b t.2.1 = none then some t.2.1
  else if cellA b t.2.1 = some p ∧ cellA b t.2.2 = some p ∧ cellA b t.1 = none then some t.1
  else none

/-- Candidate moves for `p` in a search-friendly order: completing moves,
then blocking moves, then the empty cells in preference order.  Used only to
keep the certificate computations below small; the checker re-verifies
membership in `actions b` for every candidate it follows. -/
def orderedMoves (p : Player) (b : Board) : List Action :=
  linesCoords.filterMap (lineCand p b) ++ linesCoords.filterMap (lineCand (other p) b)
    ++ prefCells.filter (fun a => (cellA b a).isNone)

/-- Certificate checker: with flag `true`, does X have a strategy forcing a
final utility of at least 0; with flag `false`, does O have one forcing at
most 0?  At the guarantor's turns it searches the candidate moves, at the
opponent's turns it requires success against every legal reply. -/
def guarCheck (forX : Bool) : Nat → Board → Bool
  | 0, _ => false
  | n + 1, b =>
    if terminal b then
      if forX then decide (0 ≤ utility b) else decide (utility b ≤ 0)
    else if ((player b == Player.X) == forX) then
      (orderedMoves (player b) b).any
        (fun a => decide (a ∈ actions b) && guarCheck forX n (resultOk b a))
    else
      (actions b).all (fun a => guarCheck forX n (resultOk b a))

/-- Plays in which every move is produced by `minimax`, starting from
`initial_state()`, under any iteration order of the action set. -/
inductive OptimalPlay : Board → Prop where
  | init : OptimalPlay initial_state
  | step {b : Board} {l : List Action} {a : Action} :
      OptimalPlay b → l.Perm (actions b) → minimaxOrd l b = some a →
      OptimalPlay (resultOk b a)

/-- The board of testable-properties Scenario 2: X at (0,0) and (0,1),
O at (1,0). -/
def c4Board : Board :=
  [[some Player.X, some Player.X, none],
   [some Player.O, none, none],
   [none, none, none]]

/-- The order in which CPython actually iterates the six-element action set
of `c4Board` (hashes of small int tuples are deterministic). -/
def c4SetOrder : List Action :=
  [(1, 2), (2, 1), (1, 1), (2, 0), (0, 2), (2, 2)]

section Helpers

theorem eval_maxE_int (x y : Int) :
    EVal.maxE (EVal.int x) (EVal.int y) = EVal.int (max x y) := by
  by_cases h : x < y <;> simp [EVal.maxE, EVal.lt, h] <;> omega

theorem eval_minE_int (x y : Int) :
    EVal.minE (EVal.int x) (EVal.int y) = EVal.int (min x y) := by
  by_cases h : y < x <;> simp [EVal.minE, EVal.lt, h] <;> omega

theorem eval_maxE_negInf_int (y : Int) :
    EVal.maxE EVal.negInf (EVal.int y) = EVal.int y := rfl

theorem eval_minE_posInf_int (y : Int) :
    EVal.minE EVal.posInf (EVal.int y) = EVal.int y := rfl

theorem foldl_congr_mem {α β : Type} (l : List α) (f g : β → α → β) (i : β)
    (h : ∀ acc, ∀ x ∈ l, f acc x = g acc x) : l.foldl f i = l.foldl g i := by
  induction l generalizing i with
  | nil => rfl
  | cons x t ih =>
    simp only [List.foldl_cons]
    rw [h i x (by simp)]
    exact ih (g i x) (fun acc y hy => h acc y (by simp [hy]))

theorem filter_length_update {α : Type} [DecidableEq α] :
    ∀ (l : List α) (p q : α → Bool) (a : α), l.Nodup → a ∈ l →
    p a = true → q a = false → (∀ x ∈ l, x ≠ a → p x = q x) →
    (l.filter q).length + 1 = (l.filter p).length := by
  intro l
  induction l with
  | nil => intro _ _ _ _ h; cases h
  | cons x t ih =>
    intro p q a hnd hmem hpa hqa hagree
    have hxt : x ∉ t := (List.nodup_cons.mp hnd).1
    have hndt : t.Nodup := (List.nodup_cons.mp hnd).2
    rcases List.mem_cons.mp hmem with rfl | hmem2
    · have hfil : t.filter p = t.filter q := by
        refine List.filter_congr (fun y hy => ?_)
        exact hagree y (List.mem_cons_of_mem _ hy) (fun h => hxt (h ▸ hy))
      simp [List.filter_cons, hpa, hqa, hfil]
    · have hxa : x ≠ a := fun h => hxt (h ▸ hmem2)
      have hx : p x = q x := hagree x (List.mem_cons_self _ _) hxa
      have ht := ih p q a hndt hmem2 hpa hqa
        (fun y hy hya => hagree y (List.mem_cons_of_mem _ hy) hya)
      by_cases hpx : p x = true
      · simp [List.filter_cons, hpx, hx ▸ hpx, ht]
      · have hpx2 : p x = false := by revert hpx; cases p x <;> simp
        simp [List.filter_cons, hpx2, hx ▸ hpx2, ht]

theorem mem_allCells (a : Action) :
    a ∈ allCells ↔ 0 ≤ a.1 ∧ a.1 ≤ 2 ∧ 0 ≤ a.2 ∧ a.2 ≤ 2 := by
  rcases a with ⟨i, j⟩
  simp [allCells, Prod.ext_iff]
  omega

theorem mem_actions {b : Board} {a : Action} :
    a ∈ actions b ↔ a ∈ allCells ∧ (cellA b a).isNone = true := by
  simp [actions, List.mem_filter]

theorem actions_ne_nil {b : Board} (h : terminal b = false) : actions b ≠ [] := by
  intro hnil
  simp [terminal, hnil] at h

theorem terminal_of_actions_nil {b : Board} (h : actions b = []) :
    terminal b = true := by
  simp [terminal, h]

theorem wf_elim {b : Board} (h : wf b = true) :
    ∃ c00 c01 c02 c10 c11 c12 c20 c21 c22,
      b = [[c00, c01, c02], [c10, c11, c12], [c20, c21, c22]] := by
  simp only [wf, Bool.and_eq_true, beq_iff_eq, List.all_eq_true] at h
  obtain ⟨h1, h2⟩ := h
  obtain ⟨r0, r1, r2, rfl⟩ := List.length_eq_three.mp h1
  obtain ⟨c00, c01, c02, rfl⟩ := List.length_eq_three.mp (h2 r0 (by simp))
  obtain ⟨c10, c11, c12, rfl⟩ := List.length_eq_three.mp (h2 r1 (by simp))
  obtain ⟨c20, c21, c22, rfl⟩ := List.length_eq_three.mp (h2 r2 (by simp))
  exact ⟨_, _, _, _, _, _, _, _, _, rfl⟩

theorem result_cells {b : Board} {a : Action} (hwf : wf b = true) (ha : a ∈ actions b) :
    wf (resultOk b a) = true
    ∧ cellA (resultOk b a) a = some (player b)
    ∧ (∀ x ∈ allCells, x ≠ a → cellA (resultOk b a) x = cellA b x)
    ∧ count_mark (player b) (resultOk b a) = count_mark (player b) b + 1
    ∧ (∀ p : Player, p ≠ player b → count_mark p (resultOk b a) = count_mark p b) := by
  obtain ⟨c00, c01, c02, c10, c11, c12, c20, c21, c22, rfl⟩ := wf_elim hwf
  rw [mem_actions] at ha
  obtain ⟨hmem, hemp⟩ := ha
  simp only [allCells, List.mem_cons, List.not_mem_nil, or_false] at hmem
  rcases hmem with rfl | rfl | rfl | rfl | rfl | rfl | rfl | rfl | rfl
  all_goals
    simp only [cellA, cell, Int.toNat_ofNat, List.getD_cons_zero, List.getD_cons_succ,
      Option.isNone_iff_eq_none] at hemp
    subst hemp
    refine ⟨rfl, rfl, ?_, ?_, ?_⟩
    · intro x hx hxa
      simp only [allCells, List.mem_cons, List.not_mem_nil, or_false] at hx
      rcases hx with rfl | rfl | rfl | rfl | rfl | rfl | rfl | rfl | rfl <;>
        first
          | rfl
          | exact absurd rfl hxa
    · simp [count_mark, resultOk, setCell, List.count_cons]
      omega
    · intro p hp
      simp [count_mark, resultOk, setCell, List.count_cons, Ne.symm hp]

theorem wf_result {b : Board} {a : Action} (hwf : wf b = true) (ha : a ∈ actions b) :
    wf (resultOk b a) = true :=
  (result_cells hwf ha).1

theorem actions_result_length {b : Board} {a : Action} (hwf : wf b = true)
    (ha : a ∈ actions b) :
    (actions (resultOk b a)).length + 1 = (actions b).length := by
  obtain ⟨-, hself, hother, -, -⟩ := result_cells hwf ha
  have hmemA : a ∈ allCells := (mem_actions.mp ha).1
  have hpa : (cellA b a).isNone = true := (mem_actions.mp ha).2
  have hqa : (cellA (resultOk b a) a).isNone = false := by rw [hself]; rfl
  exact filter_length_update allCells (fun x => (cellA b x).isNone)
    (fun x => (cellA (resultOk b a) x).isNone) a (by decide) hmemA hpa hqa
    (fun x hx hxa => by simp only [hother x hx hxa])

theorem player_eq_X_iff {b : Board} :
    player b = Player.X ↔ count_mark Player.X b = count_mark Player.O b := by
  unfold player
  split_ifs with h <;> simp [h]

theorem player_X_or_O (b : Board) : player b = Player.X ∨ player b = Player.O := by
  unfold player
  split_ifs <;> simp

theorem reach_wf {b : Board} (h : Reachable b) : wf b = true := by
  induction h with
  | init => rfl
  | step hr ha ih => exact (result_cells ih ha).1

theorem reach_counts {b : Board} (h : Reachable b) :
    count_mark Player.O b ≤ count_mark Player.X b
    ∧ count_mark Player.X b ≤ count_mark Player.O b + 1 := by
  induction h with
  | init => exact ⟨by decide, by decide⟩
  | @step b a hr ha ih =>
    have hw := reach_wf hr
    obtain ⟨-, -, -, hcself, hcother⟩ := result_cells hw ha
    rcases player_X_or_O b with hp | hp
    · rw [hp] at hcself
      have hO : count_mark Player.O (resultOk b a) = count_mark Player.O b :=
        hcother Player.O (by rw [hp]; intro h; cases h)
      have hXO := player_eq_X_iff.mp hp
      omega
    · rw [hp] at hcself
      have hX : count_mark Player.X (resultOk b a) = count_mark Player.X b :=
        hcother Player.X (by rw [hp]; intro h; cases h)
      have hne : count_mark Player.X b ≠ count_mark Player.O b := by
        intro he
        rw [player_eq_X_iff.mpr he] at hp
        cases hp
      omega

theorem player_alternates {b : Board} {a : Action} (hr : Reachable b)
    (ha : a ∈ actions b) : player (resultOk b a) = other (player b) := by
  have hw := reach_wf hr
  obtain ⟨-, -, -, hcself, hcother⟩ := result_cells hw ha
  obtain ⟨hc1, hc2⟩ := reach_counts hr
  rcases player_X_or_O b with hp | hp
  · rw [hp] at hcself
    have hO : count_mark Player.O (resultOk b a) = count_mark Player.O b :=
      hcother Player.O (by rw [hp]; intro h; cases h)
    have hXO := player_eq_X_iff.mp hp
    rw [hp]
    show player (resultOk b a) = Player.O
    unfold player
    rw [if_neg (by omega)]
  · rw [hp] at hcself
    have hX : count_mark Player.X (resultOk b a) = count_mark Player.X b :=
      hcother Player.X (by rw [hp]; intro h; cases h)
    have hne : count_mark Player.X b ≠ count_mark Player.O b := by
      intro he
      rw [player_eq_X_iff.mpr he] at hp
      cases hp
    rw [hp]
    show player (resultOk b a) = Player.X
    unfold player
    rw [if_pos (by omega)]

theorem foldl_max_init_le (l : List Int) (v : Int) : v ≤ l.foldl max v := by
  induction l generalizing v with
  | nil => exact le_refl v
  | cons x t ih => exact le_trans (le_max_left v x) (ih (max v x))

theorem foldl_max_mem (l : List Int) (v : Int) : l.foldl max v ∈ v :: l := by
  induction l generalizing v with
  | nil => simp
  | cons x t ih =>
    have h := ih (max v x)
    rcases max_choice v x with hm | hm <;> rw [hm] at h <;>
      simp only [List.foldl_cons, hm] <;> rcases List.mem_cons.mp h with h2 | h2 <;>
      simp [h2]

theorem le_foldl_max {l : List Int} {x : Int} (v : Int) (hx : x ∈ l) :
    x ≤ l.foldl max v := by
  induction l generalizing v with
  | nil => cases hx
  | cons y t ih =>
    rcases List.mem_cons.mp hx with rfl | h2
    · exact le_trans (le_max_right v x) (foldl_max_init_le t (max v x))
    · exact ih (max v y) h2

theorem foldl_max_le {l : List Int} {v c : Int} (hv : v ≤ c) (h : ∀ x ∈ l, x ≤ c) :
    l.foldl max v ≤ c := by
  rcases List.mem_cons.mp (foldl_max_mem l v) with he | he
  · omega
  · exact h _ he

theorem foldl_min_le_init (l : List Int) (v : Int) : l.foldl min v ≤ v := by
  induction l generalizing v with
  | nil => exact le_refl v
  | cons x t ih => exact le_trans (ih (min v x)) (min_le_left v x)

theorem foldl_min_mem (l : List Int) (v : Int) : l.foldl min v ∈ v :: l := by
  induction l generalizing v with
  | nil => simp
  | cons x t ih =>
    have h := ih (min v x)
    rcases min_choice v x with hm | hm <;> rw [hm] at h <;>
      simp only [List.foldl_cons, hm] <;> rcases List.mem_cons.mp h with h2 | h2 <;>
      simp [h2]

theorem foldl_min_le {l : List Int} {x : Int} (v : Int) (hx : x ∈ l) :
    l.foldl min v ≤ x := by
  induction l generalizing v with
  | nil => cases hx
  | cons y t ih =>
    rcases List.mem_cons.mp hx with rfl | h2
    · exact le_trans (foldl_min_le_init t (min v x)) (min_le_right v x)
    · exact ih (min v y) h2

theorem le_foldl_min {l : List Int} {v c : Int} (hv : c ≤ v) (h : ∀ x ∈ l, c ≤ x) :
    c ≤ l.foldl min v := by
  rcases List.mem_cons.mp (foldl_min_mem l v) with he | he
  · omega
  · exact h _ he

theorem intListMax_mem {l : List Int} (h : l ≠ []) : intListMax l ∈ l := by
  match l with
  | [] => exact absurd rfl h
  | x :: t => exact foldl_max_mem t x

theorem le_intListMax {l : List Int} {x : Int} (hx : x ∈ l) : x ≤ intListMax l := by
  match l with
  | [] => cases hx
  | y :: t =>
    rcases List.mem_cons.mp hx with rfl | h2
    · exact foldl_max_init_le t x
    · exact le_foldl_max y h2

theorem intListMin_mem {l : List Int} (h : l ≠ []) : intListMin l ∈ l := by
  match l with
  | [] => exact absurd rfl h
  | x :: t => exact foldl_min_mem t x

theorem intListMin_le {l : List Int} {x : Int} (hx : x ∈ l) : intListMin l ≤ x := by
  match l with
  | [] => cases hx
  | y :: t =>
    rcases List.mem_cons.mp hx with rfl | h2
    · exact foldl_min_le_init t x
    · exact foldl_min_le y h2

theorem intListMax_perm {l l2 : List Int} (h : l.Perm l2) :
    intListMax l = intListMax l2 := by
  rcases eq_or_ne l [] with rfl | hne
  · rw [h.nil_eq.symm]
  · have hne2 : l2 ≠ [] := fun h2 => hne ((h2 ▸ h : l.Perm []).eq_nil)
    exact le_antisymm
      (le_intListMax (h.mem_iff.mp (intListMax_mem hne)))
      (le_intListMax (h.mem_iff.mpr (intListMax_mem hne2)))

theorem intListMin_perm {l l2 : List Int} (h : l.Perm l2) :
    intListMin l = intListMin l2 := by
  rcases eq_or_ne l [] with rfl | hne
  · rw [h.nil_eq.symm]
  · have hne2 : l2 ≠ [] := fun h2 => hne ((h2 ▸ h : l.Perm []).eq_nil)
    exact le_antisymm
      (intListMin_le (h.mem_iff.mpr (intListMin_mem hne2)))
      (intListMin_le (h.mem_iff.mp (intListMin_mem hne)))

theorem utility_cases (b : Board) :
    utility b = 1 ∨ utility b = -1 ∨ utility b = 0 := by
  unfold utility
  split_ifs <;> simp

theorem foldl_prune_max_one (f : Action → EVal) (l : List Action) :
    l.foldl (fun acc a => if acc = EVal.int 1 then acc else EVal.maxE acc (f a))
      (EVal.int 1) = EVal.int 1 := by
  induction l with
  | nil => rfl
  | cons x t ih => simpa using ih

theorem foldl_prune_min_negone (f : Action → EVal) (l : List Action) :
    l.foldl (fun acc a => if acc = EVal.int (-1) then acc else EVal.minE acc (f a))
      (EVal.int (-1)) = EVal.int (-1) := by
  induction l with
  | nil => rfl
  | cons x t ih => simpa using ih

theorem foldl_prune_max (f : Action → EVal) (m : Action → Int) :
    ∀ (l : List Action), (∀ a ∈ l, f a = EVal.int (m a) ∧ m a ≤ 1) →
    ∀ (v : Int), v ≤ 1 →
    l.foldl (fun acc a => if acc = EVal.int 1 then acc else EVal.maxE acc (f a))
        (EVal.int v)
      = EVal.int (l.foldl (fun acc a => max acc (m a)) v) := by
  intro l
  induction l with
  | nil => intro _ v _; rfl
  | cons x t ih =>
    intro h v hv
    obtain ⟨hfx, hmx⟩ := h x (by simp)
    by_cases h1 : v = 1
    · subst h1
      rw [foldl_prune_max_one]
      have heq : (x :: t).foldl (fun acc a => max acc (m a)) 1
          = ((x :: t).map m).foldl max 1 := (List.foldl_map m max (x :: t) 1).symm
      have hge := foldl_max_init_le ((x :: t).map m) 1
      have hle : ((x :: t).map m).foldl max 1 ≤ 1 := by
        refine foldl_max_le (le_refl 1) ?_
        intro y hy
        obtain ⟨a, ha, rfl⟩ := List.mem_map.mp hy
        exact (h a ha).2
      rw [heq]
      have : ((x :: t).map m).foldl max 1 = 1 := le_antisymm hle hge
      rw [this]
    · rw [List.foldl_cons, List.foldl_cons,
        if_neg (by simp [h1] : ¬ (EVal.int v = EVal.int 1)), hfx, eval_maxE_int]
      exact ih (fun a ha => h a (List.mem_cons_of_mem _ ha)) (max v (m x))
        (max_le hv hmx)

theorem foldl_prune_min (f : Action → EVal) (m : Action → Int) :
    ∀ (l : List Action), (∀ a ∈ l, f a = EVal.int (m a) ∧ -1 ≤ m a) →
    ∀ (v : Int), -1 ≤ v →
    l.foldl (fun acc a => if acc = EVal.int (-1) then acc else EVal.minE acc (f a))
        (EVal.int v)
      = EVal.int (l.foldl (fun acc a => min acc (m a)) v) := by
  intro l
  induction l with
  | nil => intro _ v _; rfl
  | cons x t ih =>
    intro h v hv
    obtain ⟨hfx, hmx⟩ := h x (by simp)
    by_cases h1 : v = -1
    · subst h1
      rw [foldl_prune_min_negone]
      have heq : (x :: t).foldl (fun acc a => min acc (m a)) (-1)
          = ((x :: t).map m).foldl min (-1) := (List.foldl_map m min (x :: t) (-1)).symm
      have hle := foldl_min_le_init ((x :: t).map m) (-1)
      have hge : (-1 : Int) ≤ ((x :: t).map m).foldl min (-1) := by
        refine le_foldl_min (le_refl (-1)) ?_
        intro y hy
        obtain ⟨a, ha, rfl⟩ := List.mem_map.mp hy
        exact (h a ha).2
      rw [heq]
      have : ((x :: t).map m).foldl min (-1) = -1 := le_antisymm hle hge
      rw [this]
    · rw [List.foldl_cons, List.foldl_cons,
        if_neg (by simp [h1] : ¬ (EVal.int v = EVal.int (-1))), hfx, eval_minE_int]
      exact ih (fun a ha => h a (List.mem_cons_of_mem _ ha)) (min v (m x))
        (le_min hv hmx)



theorem value_refines :
    ∀ n : Nat, ∀ b : Board, wf b = true → (actions b).length = n →
      valueF (n + 1) true b = EVal.int (specValueF (n + 1) true b)
      ∧ valueF (n + 1) false b = EVal.int (specValueF (n + 1) false b)
      ∧ -1 ≤ specValueF (n + 1) true b ∧ specValueF (n + 1) true b ≤ 1
      ∧ -1 ≤ specValueF (n + 1) false b ∧ specValueF (n + 1) false b ≤ 1 := by
  intro n
  induction n using Nat.strong_induction_on with
  | _ n ih =>
    intro b hwf hlen
    by_cases ht : terminal b = true
    · simp only [valueF, specValueF, ht, if_true]
      rcases utility_cases b with h | h | h <;>
        refine ⟨trivial, trivial, ?_, ?_, ?_, ?_⟩ <;> omega
    · have ht2 : terminal b = false := by revert ht; cases terminal b <;> simp
      have hne := actions_ne_nil ht2
      obtain ⟨x, t, hxt⟩ := List.exists_cons_of_ne_nil hne
      have hchild : ∀ a ∈ actions b,
          valueF n true (resultOk b a) = EVal.int (specValueF n true (resultOk b a))
          ∧ valueF n false (resultOk b a) = EVal.int (specValueF n false (resultOk b a))
          ∧ -1 ≤ specValueF n true (resultOk b a) ∧ specValueF n true (resultOk b a) ≤ 1
          ∧ -1 ≤ specValueF n false (resultOk b a)
          ∧ specValueF n false (resultOk b a) ≤ 1 := by
        intro a ha
        have hl := actions_result_length hwf ha
        have hlt : (actions (resultOk b a)).length < n := by omega
        have hthis := ih _ hlt (resultOk b a) (wf_result hwf ha) rfl
        have hn : (actions (resultOk b a)).length + 1 = n := by omega
        rw [hn] at hthis
        exact hthis
      have hxmem : x ∈ actions b := by rw [hxt]; exact List.mem_cons_self _ _
      have htmem : ∀ a ∈ t, a ∈ actions b := by
        intro a ha; rw [hxt]; exact List.mem_cons_of_mem _ ha
      -- the two value equalities
      have hmaxeq : valueF (n + 1) true b
          = EVal.int (specValueF (n + 1) true b) := by
        simp only [valueF, specValueF, ht2, Bool.false_eq_true, if_false, if_true]
        rw [hxt, List.foldl_cons,
          if_neg (by decide : ¬ (EVal.negInf = EVal.int 1)),
          (hchild x hxmem).2.1, eval_maxE_negInf_int,
          foldl_prune_max (fun a => valueF n false (resultOk b a))
            (fun a => specValueF n false (resultOk b a)) t
            (fun a ha => ⟨(hchild a (htmem a ha)).2.1, (hchild a (htmem a ha)).2.2.2.2.2⟩)
            _ (hchild x hxmem).2.2.2.2.2]
        rw [List.map_cons, intListMax, List.foldl_map]
      have hmineq : valueF (n + 1) false b
          = EVal.int (specValueF (n + 1) false b) := by
        simp only [valueF, specValueF, ht2, Bool.false_eq_true, if_false, if_true]
        rw [hxt, List.foldl_cons,
          if_neg (by decide : ¬ (EVal.posInf = EVal.int (-1))),
          (hchild x hxmem).1, eval_minE_posInf_int,
          foldl_prune_min (fun a => valueF n true (resultOk b a))
            (fun a => specValueF n true (resultOk b a)) t
            (fun a ha => ⟨(hchild a (htmem a ha)).1, (hchild a (htmem a ha)).2.2.1⟩)
            _ (hchild x hxmem).2.2.1]
        rw [List.map_cons, intListMin, List.foldl_map]
      -- bounds
      have hmaxform : specValueF (n + 1) true b
          = intListMax ((actions b).map (fun a => specValueF n false (resultOk b a))) := by
        simp only [specValueF, ht2, Bool.false_eq_true, if_false, if_true]
      have hminform : specValueF (n + 1) false b
          = intListMin ((actions b).map (fun a => specValueF n true (resultOk b a))) := by
        simp only [specValueF, ht2, Bool.false_eq_true, if_false, if_true]
      have hmapne : ((actions b).map (fun a => specValueF n false (resultOk b a))) ≠ [] := by
        simp [hxt]
      have hmapne2 : ((actions b).map (fun a => specValueF n true (resultOk b a))) ≠ [] := by
        simp [hxt]
      have hmaxbounds : -1 ≤ specValueF (n + 1) true b ∧ specValueF (n + 1) true b ≤ 1 := by
        rw [hmaxform]
        obtain ⟨a, ha, he⟩ := List.mem_map.mp (intListMax_mem hmapne)
        have hb := hchild a ha
        exact ⟨he ▸ hb.2.2.2.2.1, he ▸ hb.2.2.2.2.2⟩
      have hminbounds : -1 ≤ specValueF (n + 1) false b ∧ specValueF (n + 1) false b ≤ 1 := by
        rw [hminform]
        obtain ⟨a, ha, he⟩ := List.mem_map.mp (intListMin_mem hmapne2)
        have hb := hchild a ha
        exact ⟨he ▸ hb.2.2.1, he ▸ hb.2.2.2.1⟩
      exact ⟨hmaxeq, hmineq, hmaxbounds.1, hmaxbounds.2, hminbounds.1, hminbounds.2⟩

theorem value_spec {b : Board} (hwf : wf b = true) :
    max_value b = EVal.int (maxValueSpec b)
    ∧ min_value b = EVal.int (minValueSpec b)
    ∧ -1 ≤ maxValueSpec b ∧ maxValueSpec b ≤ 1
    ∧ -1 ≤ minValueSpec b ∧ minValueSpec b ≤ 1 :=
  value_refines (actions b).length b hwf rfl

theorem spec_terminal {b : Board} (ht : terminal b = true) :
    maxValueSpec b = utility b ∧ minValueSpec b = utility b := by
  unfold maxValueSpec minValueSpec
  simp [specValueF, ht]

theorem gameValue_terminal {b : Board} (ht : terminal b = true) :
    gameValue b = utility b := by
  unfold gameValue
  rcases player_X_or_O b with h | h <;> rw [h] <;> simp [spec_terminal ht]

theorem gameValue_eq_max {b : Board} (hp : player b = Player.X) :
    gameValue b = maxValueSpec b := by
  unfold gameValue
  rw [hp]
  simp

theorem gameValue_eq_min {b : Board} (hp : player b = Player.O) :
    gameValue b = minValueSpec b := by
  unfold gameValue
  rw [hp]
  simp

theorem gameValue_bounds {b : Board} (hwf : wf b = true) :
    -1 ≤ gameValue b ∧ gameValue b ≤ 1 := by
  have h := value_spec hwf
  unfold gameValue
  split_ifs <;> omega

theorem maxValueSpec_nonterminal {b : Board} (hwf : wf b = true)
    (ht : terminal b = false) :
    maxValueSpec b
      = intListMax ((actions b).map (fun a => minValueSpec (resultOk b a))) := by
  unfold maxValueSpec
  simp only [specValueF, ht, Bool.false_eq_true, if_false, if_true]
  congr 1
  refine List.map_congr_left (fun a ha => ?_)
  have hl := actions_result_length hwf ha
  unfold minValueSpec
  rw [← hl]

theorem minValueSpec_nonterminal {b : Board} (hwf : wf b = true)
    (ht : terminal b = false) :
    minValueSpec b
      = intListMin ((actions b).map (fun a => maxValueSpec (resultOk b a))) := by
  unfold minValueSpec
  simp only [specValueF, ht, Bool.false_eq_true, if_false, if_true]
  congr 1
  refine List.map_congr_left (fun a ha => ?_)
  have hl := actions_result_length hwf ha
  unfold maxValueSpec
  rw [← hl]

theorem eval_lt_int (u w : Int) :
    EVal.lt (EVal.int u) (EVal.int w) = decide (u < w) := rfl

theorem minimax_foldX (b : Board) (m : Action → Int) :
    ∀ (l : List Action), (∀ a ∈ l, min_value (resultOk b a) = EVal.int (m a)) →
    ∀ (v : Int) (a0 : Action), m a0 = v →
    ∃ a2,
      l.foldl
        (fun st a =>
          let value := min_value (resultOk b a)
          if EVal.lt st.1 value then (value, some a) else st)
        ((EVal.int v, some a0) : EVal × Option Action)
      = (EVal.int (l.foldl (fun acc a => max acc (m a)) v), some a2)
      ∧ (a2 = a0 ∨ a2 ∈ l) ∧ m a2 = l.foldl (fun acc a => max acc (m a)) v := by
  intro l
  induction l with
  | nil => intro _ v a0 h0; exact ⟨a0, rfl, Or.inl rfl, h0⟩
  | cons x t ih =>
    intro h v a0 h0
    have hx := h x (List.mem_cons_self _ _)
    rw [List.foldl_cons, List.foldl_cons]
    by_cases hlt : v < m x
    · have hmax : max v (m x) = m x := max_eq_right (le_of_lt hlt)
      obtain ⟨a2, he, hm2, hv2⟩ :=
        ih (fun a ha => h a (List.mem_cons_of_mem _ ha)) (m x) x rfl
      refine ⟨a2, ?_, ?_, ?_⟩
      · simp only [List.foldl_cons, hx, eval_lt_int, decide_eq_true hlt, if_true, hmax]
        exact he
      · rcases hm2 with rfl | hm3
        · exact Or.inr (List.mem_cons_self _ _)
        · exact Or.inr (List.mem_cons_of_mem _ hm3)
      · rw [hmax]; exact hv2
    · have hmax : max v (m x) = v := max_eq_left (not_lt.mp hlt)
      obtain ⟨a2, he, hm2, hv2⟩ :=
        ih (fun a ha => h a (List.mem_cons_of_mem _ ha)) v a0 h0
      refine ⟨a2, ?_, ?_, ?_⟩
      · simp only [List.foldl_cons, hx, eval_lt_int, decide_eq_false hlt,
          Bool.false_eq_true, if_false, hmax]
        exact he
      · rcases hm2 with rfl | hm3
        · exact Or.inl rfl
        · exact Or.inr (List.mem_cons_of_mem _ hm3)
      · rw [hmax]; exact hv2

theorem minimax_foldO (b : Board) (m : Action → Int) :
    ∀ (l : List Action), (∀ a ∈ l, max_value (resultOk b a) = EVal.int (m a)) →
    ∀ (v : Int) (a0 : Action), m a0 = v →
    ∃ a2,
      l.foldl
        (fun st a =>
          let value := max_value (resultOk b a)
          if EVal.lt value st.1 then (value, some a) else st)
        ((EVal.int v, some a0) : EVal × Option Action)
      = (EVal.int (l.foldl (fun acc a => min acc (m a)) v), some a2)
      ∧ (a2 = a0 ∨ a2 ∈ l) ∧ m a2 = l.foldl (fun acc a => min acc (m a)) v := by
  intro l
  induction l with
  | nil => intro _ v a0 h0; exact ⟨a0, rfl, Or.inl rfl, h0⟩
  | cons x t ih =>
    intro h v a0 h0
    have hx := h x (List.mem_cons_self _ _)
    rw [List.foldl_cons, List.foldl_cons]
    by_cases hlt : m x < v
    · have hmin : min v (m x) = m x := min_eq_right (le_of_lt hlt)
      obtain ⟨a2, he, hm2, hv2⟩ :=
        ih (fun a ha => h a (List.mem_cons_of_mem _ ha)) (m x) x rfl
      refine ⟨a2, ?_, ?_, ?_⟩
      · simp only [List.foldl_cons, hx, eval_lt_int, decide_eq_true hlt, if_true, hmin]
        exact he
      · rcases hm2 with rfl | hm3
        · exact Or.inr (List.mem_cons_self _ _)
        · exact Or.inr (List.mem_cons_of_mem _ hm3)
      · rw [hmin]; exact hv2
    · have hmin : min v (m x) = v := min_eq_left (not_lt.mp hlt)
      obtain ⟨a2, he, hm2, hv2⟩ :=
        ih (fun a ha => h a (List.mem_cons_of_mem _ ha)) v a0 h0
      refine ⟨a2, ?_, ?_, ?_⟩
      · simp only [List.foldl_cons, hx, eval_lt_int, decide_eq_false hlt,
          Bool.false_eq_true, if_false, hmin]
        exact he
      · rcases hm2 with rfl | hm3
        · exact Or.inl rfl
        · exact Or.inr (List.mem_cons_of_mem _ hm3)
      · rw [hmin]; exact hv2



theorem eval_lt_negInf_int (w : Int) :
    EVal.lt EVal.negInf (EVal.int w) = true := rfl

theorem eval_lt_int_posInf (w : Int) :
    EVal.lt (EVal.int w) EVal.posInf = true := rfl

theorem minimaxOrd_sound {b : Board} {l : List Action} (hr : Reachable b)
    (ht2 : terminal b = false) (hperm : l.Perm (actions b)) :
    ∃ a, minimaxOrd l b = some a ∧ a ∈ actions b
      ∧ gameValue (resultOk b a) = gameValue b := by
  have hwf := reach_wf hr
  have hne : l ≠ [] := by
    intro hnil
    exact actions_ne_nil ht2 ((hnil ▸ hperm : ([] : List Action).Perm (actions b)).nil_eq.symm)
  obtain ⟨x, t, hxt⟩ := List.exists_cons_of_ne_nil hne
  have hlsub : ∀ a ∈ l, a ∈ actions b := fun a ha => hperm.subset ha
  rcases player_X_or_O b with hp | hp
  · have hmv : ∀ a ∈ l, min_value (resultOk b a)
        = EVal.int (minValueSpec (resultOk b a)) := by
      intro a ha
      exact (value_spec (wf_result hwf (hlsub a ha))).2.1
    have hxl : x ∈ l := by rw [hxt]; exact List.mem_cons_self _ _
    obtain ⟨a2, he, hm2, hv2⟩ :=
      minimax_foldX b (fun a => minValueSpec (resultOk b a)) t
        (fun a ha => hmv a (by rw [hxt]; exact List.mem_cons_of_mem _ ha))
        (minValueSpec (resultOk b x)) x rfl
    have hrun : minimaxOrd l b = some a2 := by
      unfold minimaxOrd
      rw [ht2]
      simp only [Bool.false_eq_true, if_false]
      rw [if_pos hp, hxt]
      simp only [List.foldl_cons, hmv x hxl, eval_lt_negInf_int, if_true]
      rw [he]
    have ha2l : a2 ∈ l := by
      rw [hxt]
      rcases hm2 with rfl | hm3
      · exact List.mem_cons_self _ _
      · exact List.mem_cons_of_mem _ hm3
    have ha2 : a2 ∈ actions b := hlsub a2 ha2l
    refine ⟨a2, hrun, ha2, ?_⟩
    have hpc : player (resultOk b a2) = Player.O := by
      rw [player_alternates hr ha2, hp]
      rfl
    rw [gameValue_eq_min hpc, gameValue_eq_max hp]
    have hform := maxValueSpec_nonterminal hwf ht2
    have hv3 : minValueSpec (resultOk b a2)
        = intListMax (l.map (fun a => minValueSpec (resultOk b a))) := by
      rw [hxt, List.map_cons, intListMax, List.foldl_map]
      exact hv2
    rw [hv3, hform]
    exact intListMax_perm (hperm.map _)
  · have hmv : ∀ a ∈ l, max_value (resultOk b a)
        = EVal.int (maxValueSpec (resultOk b a)) := by
      intro a ha
      exact (value_spec (wf_result hwf (hlsub a ha))).1
    have hxl : x ∈ l := by rw [hxt]; exact List.mem_cons_self _ _
    obtain ⟨a2, he, hm2, hv2⟩ :=
      minimax_foldO b (fun a => maxValueSpec (resultOk b a)) t
        (fun a ha => hmv a (by rw [hxt]; exact List.mem_cons_of_mem _ ha))
        (maxValueSpec (resultOk b x)) x rfl
    have hpO : ¬ (player b = Player.X) := by
      rw [hp]
      intro h
      cases h
    have hrun : minimaxOrd l b = some a2 := by
      unfold minimaxOrd
      rw [ht2]
      simp only [Bool.false_eq_true, if_false]
      rw [if_neg hpO, hxt]
      simp only [List.foldl_cons, hmv x hxl, eval_lt_int_posInf, if_true]
      rw [he]
    have ha2l : a2 ∈ l := by
      rw [hxt]
      rcases hm2 with rfl | hm3
      · exact List.mem_cons_self _ _
      · exact List.mem_cons_of_mem _ hm3
    have ha2 : a2 ∈ actions b := hlsub a2 ha2l
    refine ⟨a2, hrun, ha2, ?_⟩
    have hpc : player (resultOk b a2) = Player.X := by
      rw [player_alternates hr ha2, hp]
      rfl
    rw [gameValue_eq_max hpc, gameValue_eq_min hp]
    have hform := minValueSpec_nonterminal hwf ht2
    have hv3 : maxValueSpec (resultOk b a2)
        = intListMin (l.map (fun a => maxValueSpec (resultOk b a))) := by
      rw [hxt, List.map_cons, intListMin, List.foldl_map]
      exact hv2
    rw [hv3, hform]
    exact intListMin_perm (hperm.map _)

theorem XGuar_mono {b : Board} {v v2 : Int} (hle : v2 ≤ v) (h : XGuar v b) :
    XGuar v2 b := by
  induction h with
  | ofTerminal ht hu => exact XGuar.ofTerminal ht (le_trans hle hu)
  | ofXmove ht hp ha hc ihc => exact XGuar.ofXmove ht hp ha ihc
  | ofOmove ht hp hall ih => exact XGuar.ofOmove ht hp (fun a ha => ih a ha)

theorem OGuar_mono {b : Board} {v v2 : Int} (hle : v ≤ v2) (h : OGuar v b) :
    OGuar v2 b := by
  induction h with
  | ofTerminal ht hu => exact OGuar.ofTerminal ht (le_trans hu hle)
  | ofOmove ht hp ha hc ihc => exact OGuar.ofOmove ht hp ha ihc
  | ofXmove ht hp hall ih => exact OGuar.ofXmove ht hp (fun a ha => ih a ha)

theorem bool_not_true {c : Bool} (h : ¬ (c = true)) : c = false := by
  revert h
  cases c <;> simp

theorem gameValue_guar :
    ∀ n : Nat, ∀ b : Board, Reachable b → (actions b).length = n →
      XGuar (gameValue b) b ∧ OGuar (gameValue b) b := by
  intro n
  induction n using Nat.strong_induction_on with
  | _ n ih =>
    intro b hr hlen
    by_cases ht : terminal b = true
    · have hgv := gameValue_terminal ht
      exact ⟨XGuar.ofTerminal ht (le_of_eq hgv),
        OGuar.ofTerminal ht (ge_of_eq hgv)⟩
    · have ht2 : terminal b = false := bool_not_true ht
      have hwf := reach_wf hr
      have hne := actions_ne_nil ht2
      rcases player_X_or_O b with hp | hp
      · have hform := maxValueSpec_nonterminal hwf ht2
        have hmapne : (actions b).map (fun a => minValueSpec (resultOk b a)) ≠ [] := by
          simpa using hne
        obtain ⟨a, ha, he⟩ := List.mem_map.mp (intListMax_mem hmapne)
        have hlr := actions_result_length hwf ha
        have hclen : (actions (resultOk b a)).length < n := by omega
        have hIH := ih _ hclen (resultOk b a) (Reachable.step hr ha) rfl
        have hpc : player (resultOk b a) = Player.O := by
          rw [player_alternates hr ha, hp]
          rfl
        have hgvc : gameValue (resultOk b a) = gameValue b := by
          rw [gameValue_eq_min hpc, gameValue_eq_max hp, hform, he]
        constructor
        · exact XGuar.ofXmove ht2 hp ha (hgvc ▸ hIH.1)
        · refine OGuar.ofXmove ht2 hp ?_
          intro a2 ha2
          have hlr2 := actions_result_length hwf ha2
          have hclen2 : (actions (resultOk b a2)).length < n := by omega
          have hIH2 := ih _ hclen2 (resultOk b a2) (Reachable.step hr ha2) rfl
          have hpc2 : player (resultOk b a2) = Player.O := by
            rw [player_alternates hr ha2, hp]
            rfl
          have hle : gameValue (resultOk b a2) ≤ gameValue b := by
            rw [gameValue_eq_min hpc2, gameValue_eq_max hp, hform]
            exact le_intListMax (List.mem_map.mpr ⟨a2, ha2, rfl⟩)
          exact OGuar_mono hle hIH2.2
      · have hform := minValueSpec_nonterminal hwf ht2
        have hmapne : (actions b).map (fun a => maxValueSpec (resultOk b a)) ≠ [] := by
          simpa using hne
        obtain ⟨a, ha, he⟩ := List.mem_map.mp (intListMin_mem hmapne)
        have hlr := actions_result_length hwf ha
        have hclen : (actions (resultOk b a)).length < n := by omega
        have hIH := ih _ hclen (resultOk b a) (Reachable.step hr ha) rfl
        have hpc : player (resultOk b a) = Player.X := by
          rw [player_alternates hr ha, hp]
          rfl
        have hgvc : gameValue (resultOk b a) = gameValue b := by
          rw [gameValue_eq_max hpc, gameValue_eq_min hp, hform, he]
        constructor
        · refine XGuar.ofOmove ht2 hp ?_
          intro a2 ha2
          have hlr2 := actions_result_length hwf ha2
          have hclen2 : (actions (resultOk b a2)).length < n := by omega
          have hIH2 := ih _ hclen2 (resultOk b a2) (Reachable.step hr ha2) rfl
          have hpc2 : player (resultOk b a2) = Player.X := by
            rw [player_alternates hr ha2, hp]
            rfl
          have hle : gameValue b ≤ gameValue (resultOk b a2) := by
            rw [gameValue_eq_max hpc2, gameValue_eq_min hp, hform]
            exact intListMin_le (List.mem_map.mpr ⟨a2, ha2, rfl⟩)
          exact XGuar_mono hle hIH2.1
        · exact OGuar.ofOmove ht2 hp ha (hgvc ▸ hIH.2)

theorem XGuar_le {b : Board} {w : Int} (h : XGuar w b) :
    Reachable b → w ≤ gameValue b := by
  induction h with
  | ofTerminal ht hu =>
    intro hr
    rw [gameValue_terminal ht]
    exact hu
  | @ofXmove b a ht hp ha hc ihc =>
    intro hr
    have hwf := reach_wf hr
    have hpc : player (resultOk b a) = Player.O := by
      rw [player_alternates hr ha, hp]
      rfl
    have h1 := ihc (Reachable.step hr ha)
    rw [gameValue_eq_min hpc] at h1
    rw [gameValue_eq_max hp, maxValueSpec_nonterminal hwf ht]
    exact le_trans h1 (le_intListMax (List.mem_map.mpr ⟨a, ha, rfl⟩))
  | @ofOmove b ht hp hall ih =>
    intro hr
    have hwf := reach_wf hr
    have hne := actions_ne_nil ht
    rw [gameValue_eq_min hp, minValueSpec_nonterminal hwf ht]
    have hmapne : (actions b).map (fun a => maxValueSpec (resultOk b a)) ≠ [] := by
      simpa using hne
    obtain ⟨a0, ha0, he⟩ := List.mem_map.mp (intListMin_mem hmapne)
    have hpc : player (resultOk b a0) = Player.X := by
      rw [player_alternates hr ha0, hp]
      rfl
    have h1 := ih a0 ha0 (Reachable.step hr ha0)
    rw [gameValue_eq_max hpc] at h1
    rw [← he]
    exact h1

theorem OGuar_ge {b : Board} {w : Int} (h : OGuar w b) :
    Reachable b → gameValue b ≤ w := by
  induction h with
  | ofTerminal ht hu =>
    intro hr
    rw [gameValue_terminal ht]
    exact hu
  | @ofOmove b a ht hp ha hc ihc =>
    intro hr
    have hwf := reach_wf hr
    have hpc : player (resultOk b a) = Player.X := by
      rw [player_alternates hr ha, hp]
      rfl
    have h1 := ihc (Reachable.step hr ha)
    rw [gameValue_eq_max hpc] at h1
    rw [gameValue_eq_min hp, minValueSpec_nonterminal hwf ht]
    exact le_trans (intListMin_le (List.mem_map.mpr ⟨a, ha, rfl⟩)) h1
  | @ofXmove b ht hp hall ih =>
    intro hr
    have hwf := reach_wf hr
    have hne := actions_ne_nil ht
    rw [gameValue_eq_max hp, maxValueSpec_nonterminal hwf ht]
    have hmapne : (actions b).map (fun a => minValueSpec (resultOk b a)) ≠ [] := by
      simpa using hne
    obtain ⟨a0, ha0, he⟩ := List.mem_map.mp (intListMax_mem hmapne)
    have hpc : player (resultOk b a0) = Player.O := by
      rw [player_alternates hr ha0, hp]
      rfl
    have h1 := ih a0 ha0 (Reachable.step hr ha0)
    rw [gameValue_eq_min hpc] at h1
    rw [← he]
    exact h1

theorem gameValue_eq_one_iff {b : Board} (hr : Reachable b) :
    gameValue b = 1 ↔ XGuar 1 b := by
  constructor
  · intro h
    have := (gameValue_guar (actions b).length b hr rfl).1
    rwa [h] at this
  · intro h
    have h1 := XGuar_le h hr
    have h2 := (gameValue_bounds (reach_wf hr)).2
    omega

theorem gameValue_eq_negone_iff {b : Board} (hr : Reachable b) :
    gameValue b = -1 ↔ OGuar (-1) b := by
  constructor
  · intro h
    have := (gameValue_guar (actions b).length b hr rfl).2
    rwa [h] at this
  · intro h
    have h1 := OGuar_ge h hr
    have h2 := (gameValue_bounds (reach_wf hr)).1
    omega

theorem gameValue_eq_zero_iff {b : Board} (hr : Reachable b) :
    gameValue b = 0 ↔ (XGuar 0 b ∧ OGuar 0 b) := by
  constructor
  · intro h
    have hg := gameValue_guar (actions b).length b hr rfl
    rw [h] at hg
    exact hg
  · intro h
    have h1 := XGuar_le h.1 hr
    have h2 := OGuar_ge h.2 hr
    omega



theorem guarCheck_sound :
    ∀ (forX : Bool) (n : Nat) (b : Board), guarCheck forX n b = true →
      (forX = true → XGuar 0 b) ∧ (forX = false → OGuar 0 b) := by
  intro forX n
  induction n with
  | zero => intro b h; simp [guarCheck] at h
  | succ n ih =>
    intro b h
    by_cases ht : terminal b = true
    · rw [guarCheck, if_pos ht] at h
      cases forX with
      | true =>
        refine ⟨fun _ => ?_, fun hf => Bool.noConfusion hf⟩
        simp only [if_true] at h
        exact XGuar.ofTerminal ht (of_decide_eq_true h)
      | false =>
        refine ⟨fun hf => Bool.noConfusion hf, fun _ => ?_⟩
        simp only [Bool.false_eq_true, if_false] at h
        exact OGuar.ofTerminal ht (of_decide_eq_true h)
    · have ht2 : terminal b = false := bool_not_true ht
      rw [guarCheck, if_neg (by simp [ht2])] at h
      cases forX with
      | true =>
        refine ⟨fun _ => ?_, fun hf => Bool.noConfusion hf⟩
        rcases player_X_or_O b with hp | hp
        · rw [if_pos (by simp [hp])] at h
          obtain ⟨a, haOrd, hconj⟩ := List.any_eq_true.mp h
          obtain ⟨hmem, hrec⟩ := Bool.and_eq_true_iff.mp hconj
          exact XGuar.ofXmove ht2 hp (of_decide_eq_true hmem)
            ((ih (resultOk b a) hrec).1 rfl)
        · rw [if_neg (by simp [hp])] at h
          refine XGuar.ofOmove ht2 hp ?_
          intro a ha
          exact (ih (resultOk b a) (List.all_eq_true.mp h a ha)).1 rfl
      | false =>
        refine ⟨fun hf => Bool.noConfusion hf, fun _ => ?_⟩
        rcases player_X_or_O b with hp | hp
        · rw [if_neg (by simp [hp])] at h
          refine OGuar.ofXmove ht2 hp ?_
          intro a ha
          exact (ih (resultOk b a) (List.all_eq_true.mp h a ha)).2 rfl
        · rw [if_pos (by simp [hp])] at h
          obtain ⟨a, haOrd, hconj⟩ := List.any_eq_true.mp h
          obtain ⟨hmem, hrec⟩ := Bool.and_eq_true_iff.mp hconj
          exact OGuar.ofOmove ht2 hp (of_decide_eq_true hmem)
            ((ih (resultOk b a) hrec).2 rfl)

theorem optimal_play_inv {b : Board} (h : OptimalPlay b) :
    Reachable b ∧ gameValue b = gameValue initial_state := by
  induction h with
  | init => exact ⟨Reachable.init, rfl⟩
  | @step b l a hob hperm hm ih =>
    have ht2 : terminal b = false := by
      by_contra hc
      have ht : terminal b = true := by revert hc; cases terminal b <;> simp
      unfold minimaxOrd at hm
      rw [ht] at hm
      simp at hm
    obtain ⟨a2, hrun, ha2, hgv⟩ := minimaxOrd_sound ih.1 ht2 hperm
    have ha2a : a2 = a := by
      rw [hm] at hrun
      exact (Option.some.injEq _ _).mp hrun.symm
    subst ha2a
    exact ⟨Reachable.step ih.1 ha2, by rw [hgv, ih.2]⟩

theorem optimal_play_progress :
    ∀ (n : Nat) (b : Board), OptimalPlay b → (actions b).length ≤ n →
      ∃ c, OptimalPlay c ∧ terminal c = true := by
  intro n
  induction n with
  | zero =>
    intro b h hlen
    have hnil : actions b = [] := List.length_eq_zero.mp (Nat.le_zero.mp hlen)
    exact ⟨b, h, terminal_of_actions_nil hnil⟩
  | succ n ih =>
    intro b h hlen
    by_cases ht : terminal b = true
    · exact ⟨b, h, ht⟩
    · have ht2 : terminal b = false := bool_not_true ht
      have hr := (optimal_play_inv h).1
      obtain ⟨a, hrun, ha, -⟩ := minimaxOrd_sound hr ht2 (List.Perm.refl _)
      have hstep := OptimalPlay.step h (List.Perm.refl _) hrun
      have hlr := actions_result_length (reach_wf hr) ha
      have hlen2 : (actions (resultOk b a)).length ≤ n := by omega
      exact ih _ hstep hlen2

theorem minimax_none_of_terminal {b : Board} (ht : terminal b = true) :
    minimax b = none := by
  unfold minimax minimaxOrd
  rw [ht]
  simp

theorem other_ne (p : Player) : other p ≠ p := by
  cases p <;> simp [other]

theorem xGuar_initial_check : guarCheck true 10 initial_state = true := by
  decide!

theorem oGuar_check00 :
    guarCheck false 9 [[some Player.X, none, none],
      [none, none, none],
      [none, none, none]] = true := by
  decide!

theorem oGuar_check01 :
    guarCheck false 9 [[none, some Player.X, none],
      [none, none, none],
      [none, none, none]] = true := by
  decide!

theorem oGuar_check02 :
    guarCheck false 9 [[none, none, some Player.X],
      [none, none, none],
      [none, none, none]] = true := by
  decide!

theorem oGuar_check10 :
    guarCheck false 9 [[none, none, none],
      [some Player.X, none, none],
      [none, none, none]] = true := by
  decide!

theorem oGuar_check11 :
    guarCheck false 9 [[none, none, none],
      [none, some Player.X, none],
      [none, none, none]] = true := by
  decide!

theorem oGuar_check12 :
    guarCheck false 9 [[none, none, none],
      [none, none, some Player.X],
      [none, none, none]] = true := by
  decide!

theorem oGuar_check20 :
    guarCheck false 9 [[none, none, none],
      [none, none, none],
      [some Player.X, none, none]] = true := by
  decide!

theorem oGuar_check21 :
    guarCheck false 9 [[none, none, none],
      [none, none, none],
      [none, some Player.X, none]] = true := by
  decide!

theorem oGuar_check22 :
    guarCheck false 9 [[none, none, none],
      [none, none, none],
      [none, none, some Player.X]] = true := by
  decide!

theorem oGuar_children :
    ∀ a ∈ actions initial_state, OGuar 0 (resultOk initial_state a) := by
  intro a ha
  have hmem : a ∈ allCells := (mem_actions.mp ha).1
  simp only [allCells, List.mem_cons, List.not_mem_nil, or_false] at hmem
  rcases hmem with rfl | rfl | rfl | rfl | rfl | rfl | rfl | rfl | rfl
  · exact (guarCheck_sound false 9 _ oGuar_check00).2 rfl
  · exact (guarCheck_sound false 9 _ oGuar_check01).2 rfl
  · exact (guarCheck_sound false 9 _ oGuar_check02).2 rfl
  · exact (guarCheck_sound false 9 _ oGuar_check10).2 rfl
  · exact (guarCheck_sound false 9 _ oGuar_check11).2 rfl
  · exact (guarCheck_sound false 9 _ oGuar_check12).2 rfl
  · exact (guarCheck_sound false 9 _ oGuar_check20).2 rfl
  · exact (guarCheck_sound false 9 _ oGuar_check21).2 rfl
  · exact (guarCheck_sound false 9 _ oGuar_check22).2 rfl

theorem oGuar_initial : OGuar 0 initial_state :=
  OGuar.ofXmove (by decide) (by decide) oGuar_children

theorem gameValue_initial : gameValue initial_state = 0 := by
  have hX := (guarCheck_sound true 10 initial_state xGuar_initial_check).1 rfl
  have h1 := XGuar_le hX Reachable.init
  have h2 := OGuar_ge oGuar_initial Reachable.init
  omega

end Helpers


section Claims

/-- C1: for every non-terminal reachable board, the action returned by
`minimax(board)`, followed by optimal continuation from both sides, achieves
the game value of that position: the move preserves the game value of the
position, and the game value is `1` exactly when X can force a win, `-1`
exactly when O can force a win, and `0` exactly when both sides can force at
worst a draw. -/
theorem minimax_achieves_game_value :
    ∀ b : Board, Reachable b → terminal b = false →
      ∃ a, minimax b = some a ∧ a ∈ actions b
        ∧ gameValue (resultOk b a) = gameValue b
        ∧ (gameValue b = 1 ↔ XGuar 1 b)
        ∧ (gameValue b = -1 ↔ OGuar (-1) b)
        ∧ (gameValue b = 0 ↔ XGuar 0 b ∧ OGuar 0 b) := by
  intro b hr ht2
  obtain ⟨a, hrun, ha, hgv⟩ := minimaxOrd_sound hr ht2 (List.Perm.refl _)
  exact ⟨a, hrun, ha, hgv, gameValue_eq_one_iff hr, gameValue_eq_negone_iff hr,
    gameValue_eq_zero_iff hr⟩

/-- Witness for C1 at the empty board. -/
theorem minimax_achieves_game_value_witness :
    Reachable initial_state ∧ terminal initial_state = false
    ∧ ∃ a, minimax initial_state = some a ∧ a ∈ actions initial_state
        ∧ gameValue (resultOk initial_state a) = gameValue initial_state
        ∧ (gameValue initial_state = 1 ↔ XGuar 1 initial_state)
        ∧ (gameValue initial_state = -1 ↔ OGuar (-1) initial_state)
        ∧ (gameValue initial_state = 0 ↔ XGuar 0 initial_state ∧ OGuar 0 initial_state) :=
  ⟨Reachable.init, by decide,
    minimax_achieves_game_value initial_state Reachable.init (by decide)⟩

/-- C2: on every reachable board the pruned `max_value`/`min_value` return
exactly the exhaustive minimax values: `utility(board)` on terminal boards,
and otherwise the exhaustive maximum (resp. minimum) over all legal actions
of the opposite value function applied to `result(board, action)`; the early
exit at `1` (resp. `-1`) is a sound cutoff, not an approximation. -/
theorem pruning_sound :
    ∀ b : Board, Reachable b →
      max_value b = EVal.int (maxValueSpec b)
      ∧ min_value b = EVal.int (minValueSpec b)
      ∧ (terminal b = true → maxValueSpec b = utility b ∧ minValueSpec b = utility b)
      ∧ (terminal b = false →
          maxValueSpec b
            = intListMax ((actions b).map (fun a => minValueSpec (resultOk b a)))
          ∧ minValueSpec b
            = intListMin ((actions b).map (fun a => maxValueSpec (resultOk b a)))) := by
  intro b hr
  have hwf := reach_wf hr
  have hv := value_spec hwf
  exact ⟨hv.1, hv.2.1, fun ht => spec_terminal ht,
    fun ht2 => ⟨maxValueSpec_nonterminal hwf ht2, minValueSpec_nonterminal hwf ht2⟩⟩

/-- Witness for C2 at the empty board. -/
theorem pruning_sound_witness :
    Reachable initial_state
    ∧ max_value initial_state = EVal.int (maxValueSpec initial_state)
    ∧ min_value initial_state = EVal.int (minValueSpec initial_state) :=
  ⟨Reachable.init, (pruning_sound initial_state Reachable.init).1,
    (pruning_sound initial_state Reachable.init).2.1⟩

/-- C3: playing `minimax` for both sides repeatedly from `initial_state()`
until a terminal board is reached always ends with utility 0 (a draw), for
every sequence of moves the tie-breaking (any iteration order of the action
set) may produce. -/
theorem optimal_play_is_draw :
    ∀ b : Board, OptimalPlay b → terminal b = true → utility b = 0 := by
  intro b h ht
  have hinv := optimal_play_inv h
  have hterm := gameValue_terminal ht
  rw [gameValue_initial] at hinv
  omega

/-- Witness for C3: a terminal optimally-played board exists (built by
running the search through `optimal_play_progress`) and its utility is 0. -/
theorem optimal_play_is_draw_witness :
    ∃ b, OptimalPlay b ∧ terminal b = true ∧ utility b = 0 := by
  obtain ⟨c, hc, ht⟩ :=
    optimal_play_progress 9 initial_state OptimalPlay.init (by decide)
  exact ⟨c, hc, ht, optimal_play_is_draw c hc ht⟩

/-- C4 counterexample: the claim asserts that `minimax` returns `(0, 2)` on
the Scenario-2 board.  The iteration order of the Python action set is the
(unspecified) CPython set order, which for this very six-element set is
`c4SetOrder`, and under that order `minimax` returns `(1, 2)`, not `(0, 2)`
(every legal move has value 1, so the first enumerated action is kept). -/
theorem forced_block_counterexample :
    player c4Board = Player.O
    ∧ c4SetOrder.Perm (actions c4Board)
    ∧ minimaxOrd c4SetOrder c4Board = some ((1 : Int), (2 : Int))
    ∧ ((1 : Int), (2 : Int)) ≠ ((0 : Int), (2 : Int)) := by
  decide!

/-- C4 amended: on the Scenario-2 board it is O to move, X can force a win
against every reply (every legal action, including the "block" `(0, 2)`,
has `max_value` 1), and `minimax` therefore returns whichever action its
enumeration order presents first: `(0, 2)` under the row-major order,
`(1, 2)` under the order CPython actually iterates. -/
theorem forced_block_amended :
    player c4Board = Player.O
    ∧ minimax c4Board = some ((0 : Int), (2 : Int))
    ∧ (∀ a ∈ actions c4Board, max_value (resultOk c4Board a) = EVal.int 1) := by
  decide!

/-- Witness for the amended C4 at the "blocking" action `(0, 2)` itself. -/
theorem forced_block_amended_witness :
    ((0 : Int), (2 : Int)) ∈ actions c4Board
    ∧ max_value (resultOk c4Board ((0 : Int), (2 : Int))) = EVal.int 1 :=
  ⟨by decide, forced_block_amended.2.2 ((0 : Int), (2 : Int)) (by decide)⟩

/-- C5: `result(board, action)` fails with the single `InvalidAction` error
(here: the `Except.error` carrying the source message) exactly when the
action is not a member of `actions(board)`, i.e. exactly when a coordinate
is outside the 0..2 range or the targeted cell is not empty; no other error
message is ever produced. -/
theorem result_error_iff :
    ∀ (b : Board) (a : Action),
      ((∃ msg, result b a = Except.error msg) ↔ a ∉ actions b)
      ∧ (a ∉ actions b ↔
          (a.1 < 0 ∨ 2 < a.1 ∨ a.2 < 0 ∨ 2 < a.2 ∨ (cellA b a).isNone = false))
      ∧ (∀ msg, result b a = Except.error msg →
          msg = "Invalid action: cell is already occupied or out of bounds") := by
  intro b a
  refine ⟨?_, ?_, ?_⟩
  · by_cases h : a ∈ actions b <;> simp [result, h]
  · rw [mem_actions, mem_allCells]
    by_cases hP : (cellA b a).isNone = true
    · simp [hP]
      omega
    · simp [hP]
  · intro msg hmsg
    by_cases h : a ∈ actions b <;> simp [result, h] at hmsg
    exact hmsg.symm

/-- Witness for C5: the out-of-range action `(3, 3)` on the empty board is
rejected. -/
theorem result_error_iff_witness :
    (∃ msg, result initial_state ((3 : Int), (3 : Int)) = Except.error msg)
      ↔ ((3 : Int), (3 : Int)) ∉ actions initial_state :=
  (result_error_iff initial_state ((3 : Int), (3 : Int))).1

/-- C6: on a legal action, `result` succeeds and returns a new board whose
targeted cell holds the mover's mark while every other cell is unchanged,
so the occupied-cell count grows by exactly one.  (The input board itself is
untouched by construction: boards are immutable values in the embedding,
mirroring the `deepcopy` in the source.) -/
theorem result_frame :
    ∀ (b : Board) (a : Action), wf b = true → a ∈ actions b →
      result b a = Except.ok (resultOk b a)
      ∧ cellA (resultOk b a) a = some (player b)
      ∧ (∀ x ∈ allCells, x ≠ a → cellA (resultOk b a) x = cellA b x)
      ∧ count_mark Player.X (resultOk b a) + count_mark Player.O (resultOk b a)
          = count_mark Player.X b + count_mark Player.O b + 1 := by
  intro b a hwf ha
  obtain ⟨-, hself, hother, hcself, hcother⟩ := result_cells hwf ha
  refine ⟨by simp [result, ha], hself, hother, ?_⟩
  rcases player_X_or_O b with hp | hp
  · rw [hp] at hcself
    have hO := hcother Player.O (by rw [hp]; intro h; cases h)
    omega
  · rw [hp] at hcself
    have hX := hcother Player.X (by rw [hp]; intro h; cases h)
    omega

/-- Witness for C6: placing the first mark at `(0, 0)`. -/
theorem result_frame_witness :
    wf initial_state = true ∧ ((0 : Int), (0 : Int)) ∈ actions initial_state
    ∧ result initial_state ((0 : Int), (0 : Int))
        = Except.ok (resultOk initial_state ((0 : Int), (0 : Int))) :=
  ⟨by decide, by decide,
    (result_frame initial_state ((0 : Int), (0 : Int)) (by decide) (by decide)).1⟩

/-- C7: X moves first on the empty board; every reachable board has
`|X cells| - |O cells|` in `{0, 1}`; the derived `player` is X exactly when
the two counts agree (and O otherwise); and each legal move flips the player
to move, so turns strictly alternate. -/
theorem reachable_invariants :
    player initial_state = Player.X
    ∧ ∀ b : Board, Reachable b →
        (count_mark Player.O b ≤ count_mark Player.X b
          ∧ count_mark Player.X b ≤ count_mark Player.O b + 1)
        ∧ (player b = Player.X ↔ count_mark Player.X b = count_mark Player.O b)
        ∧ (∀ a ∈ actions b, player (resultOk b a) ≠ player b) := by
  refine ⟨by decide, ?_⟩
  intro b hr
  refine ⟨reach_counts hr, player_eq_X_iff, ?_⟩
  intro a ha
  rw [player_alternates hr ha]
  exact other_ne (player b)

/-- Witness for C7 at the empty board. -/
theorem reachable_invariants_witness :
    Reachable initial_state
    ∧ count_mark Player.O initial_state ≤ count_mark Player.X initial_state
    ∧ count_mark Player.X initial_state ≤ count_mark Player.O initial_state + 1 :=
  ⟨Reachable.init,
    (reachable_invariants.2 initial_state Reachable.init).1.1,
    (reachable_invariants.2 initial_state Reachable.init).1.2⟩

/-- C8: on every terminal board `utility` returns exactly one of
`{-1, 0, 1}`, and it matches the sign convention of `winner`: 1 when X has
won, -1 when O has won, 0 otherwise (draw). -/
theorem utility_terminal_range :
    ∀ b : Board, terminal b = true →
      (utility b = 1 ∨ utility b = -1 ∨ utility b = 0)
      ∧ (winner b = some Player.X → utility b = 1)
      ∧ (winner b = some Player.O → utility b = -1)
      ∧ (winner b = none → utility b = 0) := by
  intro b _
  refine ⟨utility_cases b, ?_, ?_, ?_⟩ <;> (intro h; simp [utility, h])

/-- Witness for C8: a board with a completed top row of X. -/
theorem utility_terminal_range_witness :
    terminal [[some Player.X, some Player.X, some Player.X],
      [some Player.O, some Player.O, none], [none, none, none]] = true
    ∧ (utility [[some Player.X, some Player.X, some Player.X],
        [some Player.O, some Player.O, none], [none, none, none]] = 1
      ∨ utility [[some Player.X, some Player.X, some Player.X],
        [some Player.O, some Player.O, none], [none, none, none]] = -1
      ∨ utility [[some Player.X, some Player.X, some Player.X],
        [some Player.O, some Player.O, none], [none, none, none]] = 0) :=
  ⟨by decide,
    (utility_terminal_range [[some Player.X, some Player.X, some Player.X],
      [some Player.O, some Player.O, none], [none, none, none]] (by decide)).1⟩

/-- C9: on every reachable board, `minimax` returns `none` exactly on
terminal boards, and on a non-terminal board it returns a member of
`actions(board)` (never `none`, never an illegal cell). -/
theorem minimax_none_iff_terminal :
    ∀ b : Board, Reachable b →
      (minimax b = none ↔ terminal b = true)
      ∧ (terminal b = false →
          ∃ a, minimax b = some a ∧ a ∈ actions b) := by
  intro b hr
  constructor
  · constructor
    · intro hnone
      by_contra hterm
      have ht2 : terminal b = false := bool_not_true hterm
      obtain ⟨a, hrun, -, -⟩ := minimaxOrd_sound hr ht2 (List.Perm.refl _)
      have hsome : minimax b = some a := hrun
      rw [hsome] at hnone
      cases hnone
    · exact minimax_none_of_terminal
  · intro ht2
    obtain ⟨a, hrun, ha, -⟩ := minimaxOrd_sound hr ht2 (List.Perm.refl _)
    exact ⟨a, hrun, ha⟩

/-- Witness for C9 at the empty board. -/
theorem minimax_none_iff_terminal_witness :
    Reachable initial_state
    ∧ (minimax initial_state = none ↔ terminal initial_state = true) :=
  ⟨Reachable.init, (minimax_none_iff_terminal initial_state Reachable.init).1⟩

/-- C10: on every (well-formed 3x3) board the infinity sentinels can never
be the value returned by `max_value` or `min_value`: the result is always
`EVal.int v` with `v` in `{-1, 0, 1}`, because on a terminal board the
functions return `utility(board)` and on a non-terminal board the action
list is non-empty, so the accumulator is always overwritten. -/
theorem sentinels_never_returned :
    ∀ b : Board, wf b = true →
      (max_value b ≠ EVal.negInf ∧ max_value b ≠ EVal.posInf
        ∧ ∃ v, max_value b = EVal.int v ∧ (v = -1 ∨ v = 0 ∨ v = 1))
      ∧ (min_value b ≠ EVal.negInf ∧ min_value b ≠ EVal.posInf
        ∧ ∃ v, min_value b = EVal.int v ∧ (v = -1 ∨ v = 0 ∨ v = 1))
      ∧ (terminal b = true →
          max_value b = EVal.int (utility b) ∧ min_value b = EVal.int (utility b))
      ∧ (terminal b = false → actions b ≠ []) := by
  intro b hwf
  obtain ⟨h1, h2, h3, h4, h5, h6⟩ := value_spec hwf
  refine ⟨?_, ?_, fun ht => ?_, fun ht2 => actions_ne_nil ht2⟩
  · exact ⟨(by rw [h1]; intro h; cases h), (by rw [h1]; intro h; cases h),
      maxValueSpec b, h1, (by omega)⟩
  · exact ⟨(by rw [h2]; intro h; cases h), (by rw [h2]; intro h; cases h),
      minValueSpec b, h2, (by omega)⟩
  · exact ⟨by rw [h1, (spec_terminal ht).1], by rw [h2, (spec_terminal ht).2]⟩

/-- Witness for C10 at the empty board. -/
theorem sentinels_never_returned_witness :
    wf initial_state = true
    ∧ max_value initial_state ≠ EVal.negInf
    ∧ min_value initial_state ≠ EVal.posInf :=
  ⟨by decide, (sentinels_never_returned initial_state (by decide)).1.1,
    (sentinels_never_returned initial_state (by decide)).2.1.2.1⟩

end Claims

end TicTacToe
